import Mathlib

/-!
A shallow embedding of the `query-language` repository (src/src/lib.rs): the
value model, tokenizer, recursive-descent parser and query executor, together
with proofs about the claims of the specification.

Conventions of the embedding:
* Rust `i64` / `usize` become `Int` / `Nat` with explicit range checks where
  the code calls `str::parse`; `f64` literals are represented by the exact
  rational value of the decimal literal (no arithmetic is ever performed on
  floats by the program, only comparisons of literal-derived values).
* `HashMap<String, Value>` rows become association lists with insert-replace
  semantics; lookups (`get`) are the only operations the program performs on
  rows, and they agree with Rust's `HashMap` for every association list built
  by the embedding's `rowInsert`.
* Rust iterator `take_while` on a `Peekable` consumes the first character that
  fails the predicate and discards it; `takeWhileEat` mirrors this exactly.
* Recursive functions that walk a shrinking character or token list take a
  fuel parameter so that they are structurally recursive and kernel-reducible;
  callers pass fuel strictly larger than any possible recursion depth, so the
  fuel-exhaustion branch is unreachable.
-/

namespace QL

/-- Value: the tagged union of scalar kinds (lib.rs, `enum Value`). -/
inductive Value where
  | int (i : Int)
  | float (q : Rat)
  | string (s : String)
  | bool (b : Bool)
  | null
deriving DecidableEq, Repr

/-- Row: a mapping from column name to `Value` (lib.rs, `struct Row`), as an
association list with at most one binding per key when built by `rowInsert`. -/
def Row := List (String × Value)
deriving DecidableEq, Repr

/-- Lookup of a column in a row, mirroring `row.data.get(name)`. -/
def rowGet (r : Row) (k : String) : Option Value :=
  (List.find? (fun p => p.1 == k) r).map (·.2)

/-- Insertion mirroring `HashMap::insert`: the new binding replaces any
existing binding of the same key. -/
def rowInsert (r : Row) (k : String) (v : Value) : Row :=
  (k, v) :: List.filter (fun p => p.1 != k) r

/-- Merge mirroring `merged.data.extend(right.data.clone())`: every binding of
the right row is inserted into (a copy of) the left row. -/
def rowExtend (l r : Row) : Row :=
  List.foldl (fun acc p => rowInsert acc p.1 p.2) l r

/-- Table: name, declared columns and an ordered sequence of rows
(lib.rs, `struct Table`). -/
structure Table where
  name : String
  columns : List String
  rows : List Row
deriving DecidableEq, Repr

/-- Token: the lexical tokens of the query language (lib.rs, `enum Token`). -/
inductive Token where
  | Select | From | Where | Join | On | GroupBy | OrderBy | Limit
  | And | Or | Asc | Desc | Comma | Star | LParen | RParen
  | Ident (s : String)
  | Number (s : String)
  | String (s : String)
  | Op (s : String)
deriving DecidableEq, Repr

/-- Rust `chars.by_ref().take_while(p).collect()` on a `Peekable<Chars>`:
collects the longest prefix satisfying `p` and, crucially, also consumes and
discards the first character failing `p` (if any).  Returns the collected
prefix and the remaining characters after that consumed delimiter. -/
def takeWhileEat (p : Char → Bool) : List Char → List Char × List Char
  | [] => ([], [])
  | c :: cs =>
    if p c then
      let r := takeWhileEat p cs
      (c :: r.1, r.2)
    else
      ([], cs)

/-- Keyword recognition of the tokenizer's identifier branch (lib.rs,
`tokenize`, the `match word.as_str()` table). -/
def wordToken (w : String) : Token :=
  match w with
  | "SELECT" => .Select
  | "FROM" => .From
  | "WHERE" => .Where
  | "JOIN" => .Join
  | "ON" => .On
  | "GROUP" => .GroupBy
  | "ORDER" => .OrderBy
  | "LIMIT" => .Limit
  | "AND" => .And
  | "OR" => .Or
  | "ASC" => .Asc
  | "DESC" => .Desc
  | "BY" => .Ident "BY"
  | _ => .Ident w

/-- Membership in the operator character set `"=<>!"`. -/
def opChar (c : Char) : Bool :=
  c == '=' || c == '<' || c == '>' || c == '!'

/-- Identifier continuation characters: `is_alphanumeric() || '_'`. -/
def identChar (c : Char) : Bool :=
  c.isAlphanum || c == '_'

/-- Number characters: `is_numeric() || '.'`. -/
def numChar (c : Char) : Bool :=
  c.isDigit || c == '.'

/-- Dispatch condition under which the tokenizer loop reaches and takes its
identifier branch for the current character: every earlier branch guard
(whitespace, the four punctuation characters, the quote, the digit test) is
false and the identifier guard `is_alphabetic() || '_'` is true. -/
def identHeadChar (c : Char) : Bool :=
  !c.isWhitespace && !(c == ',') && !(c == '*') && !(c == '(') && !(c == ')') &&
    !(c == '\'') && !c.isDigit && (c.isAlpha || c == '_')

/-- Tokenizer loop (lib.rs, `tokenize`), over the already upper-cased
character list.  Fuel bounds the number of loop iterations; every iteration
consumes at least one character, so fuel `cs.length + 1` never runs out. -/
def tokenizeAux : Nat → List Char → List Token
  | 0, _ => []
  | _ + 1, [] => []
  | fuel + 1, c :: rest =>
    if c.isWhitespace then tokenizeAux fuel rest
    else if c == ',' then .Comma :: tokenizeAux fuel rest
    else if c == '*' then .Star :: tokenizeAux fuel rest
    else if c == '(' then .LParen :: tokenizeAux fuel rest
    else if c == ')' then .RParen :: tokenizeAux fuel rest
    else if c == '\'' then
      let r := takeWhileEat (fun x => x != '\'') rest
      .String (String.mk r.1) :: tokenizeAux fuel (r.2.drop 1)
    else if c.isDigit then
      let r := takeWhileEat numChar (c :: rest)
      .Number (String.mk r.1) :: tokenizeAux fuel r.2
    else if c.isAlpha || c == '_' then
      let r := takeWhileEat identChar (c :: rest)
      wordToken (String.mk r.1) :: tokenizeAux fuel r.2
    else if opChar c then
      let r := takeWhileEat opChar (c :: rest)
      .Op (String.mk r.1) :: tokenizeAux fuel r.2
    else tokenizeAux fuel rest

/-- Tokenizer entry point (lib.rs, `tokenize`): upper-case the whole input,
then scan.  The inputs of interest are ASCII, where `Char.toUpper` agrees with
Rust's `to_uppercase`. -/
def tokenize (s : String) : List Token :=
  let cs := s.toList.map Char.toUpper
  tokenizeAux (cs.length + 1) cs

/-- Expr: the recursive expression tree (lib.rs, `enum Expr`). -/
inductive Expr where
  | Column (name : String)
  | Literal (v : Value)
  | BinOp (l : Expr) (op : String) (r : Expr)
  | FuncCall (name : String) (args : List Expr)

/-- Join: a joined table name plus its `ON` expression (lib.rs, `struct Join`;
the source field is called `on`, a reserved word in Lean). -/
structure Join where
  table : String
  onExpr : Expr

/-- Query: the parsed form of a query (lib.rs, `struct Query`). -/
structure Query where
  select_cols : List String
  from_table : String
  joins : List Join
  where_clause : Option Expr
  group_by : List String
  order_by : List (String × Bool)
  limit : Option Nat

/-- Numeric value of a list of digit characters. -/
def digitsVal (cs : List Char) : Nat :=
  cs.foldl (fun n c => n * 10 + (c.toNat - '0'.toNat)) 0

/-- Digit-only test for a list of characters. -/
def isDigits (cs : List Char) : Bool :=
  cs.all Char.isDigit

/-- Model of Rust `str::parse::<i64>()` restricted to the strings the
tokenizer can put in a `Number` token (digits and dots; no sign).  Parsing
succeeds exactly on non-empty all-digit strings whose value fits in an `i64`
(at most `2 ^ 63 - 1`, since the tokenizer never produces a minus sign). -/
def rustParseI64 (s : String) : Option Int :=
  let cs := s.data
  if cs ≠ [] ∧ isDigits cs = true ∧ digitsVal cs ≤ 9223372036854775807 then
    some (Int.ofNat (digitsVal cs))
  else none

/-- Model of Rust `str::parse::<usize>()` (64-bit, so at most `2 ^ 64 - 1`)
restricted to the strings the tokenizer can put in a `Number` token. -/
def rustParseUsize (s : String) : Option Nat :=
  let cs := s.data
  if cs ≠ [] ∧ isDigits cs = true ∧ digitsVal cs ≤ 18446744073709551615 then
    some (digitsVal cs)
  else none

/-- Split of a character list at every dot, mirroring `str::split('.')`. -/
def splitDot : List Char → List (List Char)
  | [] => [[]]
  | c :: cs =>
    if c = '.' then [] :: splitDot cs
    else
      match splitDot cs with
      | h :: t => (c :: h) :: t
      | [] => [[c]]

/-- Model of Rust `str::parse::<f64>()` restricted to the strings the
tokenizer can put in a `Number` token (digits and dots, leading digit; no
sign, exponent, infinity or NaN forms).  Such a string parses exactly when it
has at most one dot and at least one digit, and the embedding records the
exact rational value of the decimal literal. -/
def rustParseF64 (s : String) : Option Rat :=
  match splitDot s.data with
  | [a] => if a ≠ [] ∧ isDigits a = true then some ((digitsVal a : Rat)) else none
  | [a, b] =>
    if (a ≠ [] ∨ b ≠ []) ∧ isDigits a = true ∧ isDigits b = true then
      some ((digitsVal a : Rat) + (digitsVal b : Rat) / (10 : Rat) ^ b.length)
    else none
  | _ => none

/-- Rust `Debug` rendering of the tokens that ever reach
`format!("Expected {:?}", expected)` (all unit variants). -/
def tokenDebug (t : Token) : String :=
  match t with
  | .Select => "Select"
  | .From => "From"
  | .Where => "Where"
  | .Join => "Join"
  | .On => "On"
  | .GroupBy => "GroupBy"
  | .OrderBy => "OrderBy"
  | .Limit => "Limit"
  | .And => "And"
  | .Or => "Or"
  | .Asc => "Asc"
  | .Desc => "Desc"
  | .Comma => "Comma"
  | .Star => "Star"
  | .LParen => "LParen"
  | .RParen => "RParen"
  | .Ident s => "Ident(" ++ s ++ ")"
  | .Number s => "Number(" ++ s ++ ")"
  | .String s => "String(" ++ s ++ ")"
  | .Op s => "Op(" ++ s ++ ")"

/-- Outcome of a parsing function: success with the unconsumed tokens, a
descriptive error (`Err(String)` in the source), or `fatal`, which marks a
Rust panic (the `unwrap()` calls in `parse_primary`). -/
inductive POut (α : Type) where
  | ok (a : α) (rest : List Token)
  | error (msg : String)
  | fatal

/-- Sequencing of parse results, threading the unconsumed tokens. -/
def pbind {α β : Type} (r : POut α) (k : α → List Token → POut β) : POut β :=
  match r with
  | .ok a ts => k a ts
  | .error e => .error e
  | .fatal => .fatal

/-- Mirror of `Parser::expect` (lib.rs): consume the expected token or fail
with `Expected {:?}`. -/
def expectTok (t : Token) (ts : List Token) : POut Unit :=
  match ts with
  | u :: rest => if u = t then .ok () rest else .error ("Expected " ++ tokenDebug t)
  | [] => .error ("Expected " ++ tokenDebug t)

mutual

/-- Mirror of `Parser::parse_expr` (lib.rs). -/
def parse_expr : Nat → List Token → POut Expr
  | 0, _ => .error "recursion limit"
  | fuel + 1, ts => parse_or_expr fuel ts

/-- Mirror of `Parser::parse_or_expr` (lib.rs): left-associative OR chain. -/
def parse_or_expr : Nat → List Token → POut Expr
  | 0, _ => .error "recursion limit"
  | fuel + 1, ts => pbind (parse_and_expr fuel ts) (fun l rest => or_loop fuel l rest)

/-- Loop of `parse_or_expr`: `while current == Or`. -/
def or_loop : Nat → Expr → List Token → POut Expr
  | 0, _, _ => .error "recursion limit"
  | fuel + 1, left, ts =>
    match ts with
    | .Or :: rest =>
      pbind (parse_and_expr fuel rest)
        (fun right rest2 => or_loop fuel (.BinOp left "OR" right) rest2)
    | _ => .ok left ts

/-- Mirror of `Parser::parse_and_expr` (lib.rs): left-associative AND chain. -/
def parse_and_expr : Nat → List Token → POut Expr
  | 0, _ => .error "recursion limit"
  | fuel + 1, ts => pbind (parse_comparison fuel ts) (fun l rest => and_loop fuel l rest)

/-- Loop of `parse_and_expr`: `while current == And`. -/
def and_loop : Nat → Expr → List Token → POut Expr
  | 0, _, _ => .error "recursion limit"
  | fuel + 1, left, ts =>
    match ts with
    | .And :: rest =>
      pbind (parse_comparison fuel rest)
        (fun right rest2 => and_loop fuel (.BinOp left "AND" right) rest2)
    | _ => .ok left ts

/-- Mirror of `Parser::parse_comparison` (lib.rs): one primary, optionally
followed by a single comparison operator and a second primary — never more. -/
def parse_comparison : Nat → List Token → POut Expr
  | 0, _ => .error "recursion limit"
  | fuel + 1, ts =>
    pbind (parse_primary fuel ts) (fun left rest =>
      match rest with
      | .Op op :: rest2 =>
        pbind (parse_primary fuel rest2)
          (fun right rest3 => .ok (.BinOp left op right) rest3)
      | _ => .ok left rest)

/-- Mirror of `Parser::parse_primary` (lib.rs).  The `Number` branch calls
`num.parse().unwrap()`, which panics when the literal does not parse; the
embedding returns `fatal` there. -/
def parse_primary : Nat → List Token → POut Expr
  | 0, _ => .error "recursion limit"
  | fuel + 1, ts =>
    match ts with
    | .Ident n :: rest => .ok (.Column n) rest
    | .Number n :: rest =>
      if n.data.contains '.' then
        match rustParseF64 n with
        | some q => .ok (.Literal (.float q)) rest
        | none => .fatal
      else
        match rustParseI64 n with
        | some i => .ok (.Literal (.int i)) rest
        | none => .fatal
    | .String s :: rest => .ok (.Literal (.string s)) rest
    | .LParen :: rest =>
      pbind (parse_expr fuel rest) (fun e rest2 =>
        pbind (expectTok .RParen rest2) (fun _ rest3 => .ok e rest3))
    | _ => .error "Expected expression"

end

/-- Loop of `parse_select_list` (lib.rs): identifiers separated by commas. -/
def sel_loop : Nat → List String → List Token → POut (List String)
  | 0, _, _ => .error "recursion limit"
  | fuel + 1, acc, ts =>
    match ts with
    | .Ident n :: rest =>
      match rest with
      | .Comma :: rest2 => sel_loop fuel (acc ++ [n]) rest2
      | _ => .ok (acc ++ [n]) rest
    | _ => .error "Expected column name"

/-- Mirror of `Parser::parse_select_list` (lib.rs): `*` or a comma-separated
identifier list. -/
def parse_select_list (fuel : Nat) (ts : List Token) : POut (List String) :=
  match ts with
  | .Star :: rest => .ok ["*"] rest
  | _ => sel_loop fuel [] ts

/-- Mirror of `Parser::parse_column_list` (lib.rs). -/
def parse_column_list (fuel : Nat) (ts : List Token) : POut (List String) :=
  sel_loop fuel [] ts

/-- Loop of the `ORDER BY` clause in `parse_query` (lib.rs): column name with
optional ASC/DESC (default ASC), separated by commas. -/
def ord_loop : Nat → List (String × Bool) → List Token → POut (List (String × Bool))
  | 0, _, _ => .error "recursion limit"
  | fuel + 1, acc, ts =>
    match ts with
    | .Ident n :: rest =>
      let dir : Bool × List Token :=
        match rest with
        | .Asc :: rest2 => (true, rest2)
        | .Desc :: rest2 => (false, rest2)
        | _ => (true, rest)
      match dir.2 with
      | .Comma :: rest3 => ord_loop fuel (acc ++ [(n, dir.1)]) rest3
      | _ => .ok (acc ++ [(n, dir.1)]) dir.2
    | _ => .error "Expected column name"

/-- Loop of the `JOIN` clauses in `parse_query` (lib.rs):
`while current == Join`. -/
def join_loop : Nat → List Join → List Token → POut (List Join)
  | 0, _, _ => .error "recursion limit"
  | fuel + 1, acc, ts =>
    match ts with
    | .Join :: rest =>
      match rest with
      | .Ident t :: rest2 =>
        pbind (expectTok .On rest2) (fun _ rest3 =>
          pbind (parse_expr fuel rest3) (fun e rest4 =>
            join_loop fuel (acc ++ [⟨t, e⟩]) rest4))
      | _ => .error "Expected table name in JOIN"
    | _ => .ok acc ts

/-- Mirror of `Parser::parse_query` (lib.rs): SELECT list, FROM table, joins,
optional WHERE, GROUP [BY], ORDER [BY], LIMIT.  Note that nothing checks that
the token stream is exhausted afterwards: leftover tokens are ignored. -/
def parse_query (fuel : Nat) (ts : List Token) : POut Query :=
  pbind (expectTok .Select ts) (fun _ ts =>
    pbind (parse_select_list fuel ts) (fun select_cols ts =>
      pbind (expectTok .From ts) (fun _ ts =>
        match ts with
        | .Ident from_table :: ts =>
          pbind (join_loop fuel [] ts) (fun joins ts =>
            pbind
              (match ts with
               | .Where :: ts =>
                 pbind (parse_expr fuel ts) (fun e ts => .ok (some e) ts)
               | _ => .ok none ts)
              (fun where_clause ts =>
                pbind
                  (match ts with
                   | .GroupBy :: ts =>
                     match ts with
                     | .Ident "BY" :: ts2 => parse_column_list fuel ts2
                     | _ => parse_column_list fuel ts
                   | _ => .ok [] ts)
                  (fun group_by ts =>
                    pbind
                      (match ts with
                       | .OrderBy :: ts =>
                         match ts with
                         | .Ident "BY" :: ts2 => ord_loop fuel [] ts2
                         | _ => ord_loop fuel [] ts
                       | _ => .ok [] ts)
                      (fun order_by ts =>
                        match ts with
                        | .Limit :: ts =>
                          (match ts with
                           | .Number n :: ts2 =>
                             .ok (Query.mk select_cols from_table joins
                                    where_clause group_by order_by
                                    (rustParseUsize n)) ts2
                           | _ => .error "Expected limit number")
                        | _ =>
                          .ok (Query.mk select_cols from_table joins
                                 where_clause group_by order_by none) ts))))
        | _ => .error "Expected table name")))

/-- Final outcome of `parse`: a query, a parse error, or a panic. -/
inductive RResult (α : Type) where
  | ok (a : α)
  | error (msg : String)
  | fatal

/-- Mirror of the crate-level `parse` (lib.rs): tokenize, then run
`parse_query`; unconsumed tokens are discarded.  The fuel passed in strictly
exceeds any possible recursion depth of the parser on this token list. -/
def parse (sql : String) : RResult Query :=
  let ts := tokenize sql
  match parse_query (8 * ts.length + 8) ts with
  | .ok q _ => .ok q
  | .error e => .error e
  | .fatal => .fatal

/-- Database: the relational store, a map from table name to table
(lib.rs, `struct Database`). -/
structure Database where
  tables : List (String × Table)

/-- Table lookup, mirroring `self.tables.get(name)`. -/
def findTable (db : Database) (name : String) : Option Table :=
  (List.find? (fun p => p.1 == name) db.tables).map (·.2)

/-- Mirror of `Value::is_true` (lib.rs): holds only for `Bool(true)`. -/
def Value.is_true : Value → Bool
  | .bool true => true
  | _ => false

/-- Mirror of `Database::apply_binop` (lib.rs): strict kind-matched binary
operator table; every unlisted combination yields null. -/
def apply_binop (left : Value) (op : String) (right : Value) : Value :=
  match left, right with
  | .int a, .int b =>
    match op with
    | "=" => .bool (a = b)
    | "!=" => .bool (a ≠ b)
    | "<" => .bool (a < b)
    | ">" => .bool (a > b)
    | "<=" => .bool (a ≤ b)
    | ">=" => .bool (a ≥ b)
    | _ => .null
  | .string a, .string b =>
    match op with
    | "=" => .bool (a = b)
    | "!=" => .bool (a ≠ b)
    | _ => .null
  | .bool a, .bool b =>
    match op with
    | "AND" => .bool (a && b)
    | "OR" => .bool (a || b)
    | _ => .null
  | _, _ => .null

/-- Mirror of `Database::eval_expr` (lib.rs).  (The Rust method takes `&self`
but never uses it.) -/
def eval_expr (e : Expr) (row : Row) : Value :=
  match e with
  | .Column name => (rowGet row name).getD .null
  | .Literal v => v
  | .BinOp l op r => apply_binop (eval_expr l row) op (eval_expr r row)
  | .FuncCall _ _ => .null

/-- Three-way comparison by `<`, the semantics of Rust `Ord::cmp` on integers
and strings and of the explicit float branch of `compare_values`. -/
def ltCmp {α : Type} [LinearOrder α] (x y : α) : Ordering :=
  if x < y then .lt else if x > y then .gt else .eq

/-- Mirror of `Database::compare_values` (lib.rs): ordering within a kind for
integers, strings and floats (numeric order for `Int`, lexicographic
code-point order for `String`, matching Rust's byte order on UTF-8); every
other pair is `Equal`. -/
def compare_values (a b : Value) : Ordering :=
  match a, b with
  | .int x, .int y => ltCmp x y
  | .string x, .string y => ltCmp x y
  | .float x, .float y => if x < y then .lt else if x > y then .gt else .eq
  | _, _ => .eq

/-- WHERE stage of `Database::execute` (lib.rs): retain the rows on which the
filter expression evaluates to `Bool(true)`. -/
def whereStage (wc : Option Expr) (rows : List Row) : List Row :=
  match wc with
  | some w => rows.filter (fun r => (eval_expr w r).is_true)
  | none => rows

/-- One JOIN of `Database::execute` (lib.rs): an unindexed nested loop pairing
every surviving left row with every row of the joined table, merging with
right-wins overlay and keeping the merged row when the `on` expression is
true; errors when the joined table is absent. -/
def joinStep (db : Database) (j : Join) (rows : List Row) : Except String (List Row) :=
  match findTable db j.table with
  | none => .error ("Table not found: " ++ j.table)
  | some jt =>
    .ok (rows.flatMap (fun left =>
      jt.rows.filterMap (fun right =>
        let merged := rowExtend left right
        if (eval_expr j.onExpr merged).is_true then some merged else none)))

/-- JOIN loop of `Database::execute` (lib.rs): joins applied in declaration
order, each join's output feeding the next join. -/
def joinStage (db : Database) : List Join → List Row → Except String (List Row)
  | [], rows => .ok rows
  | j :: js, rows =>
    match joinStep db j rows with
    | .error e => .error e
    | .ok rows2 => joinStage db js rows2

/-- Grouping key of a row: the tuple of values of the grouping columns, with
null for an absent column (lib.rs, `apply_group_by`). -/
def groupKey (cols : List String) (r : Row) : List Value :=
  cols.map (fun c => (rowGet r c).getD .null)

/-- First-occurrence deduplication of the group keys.  The Rust code collects
the groups in a `HashMap` and emits them in its (unspecified) iteration
order; the embedding fixes first-seen order as its deterministic refinement. -/
def dedupKeys (ks : List (List Value)) : List (List Value) :=
  ks.foldl (fun acc k => if acc.contains k then acc else acc ++ [k]) []

/-- Mirror of `Database::apply_group_by` (lib.rs): one representative row per
distinct key tuple, holding only the grouping columns. -/
def apply_group_by (rows : List Row) (group_cols : List String) : List Row :=
  (dedupKeys (rows.map (groupKey group_cols))).map (fun key =>
    (group_cols.zip key).foldl (fun acc p => rowInsert acc p.1 p.2) [])

/-- Row comparator used by the ORDER BY stage for one `(column, ascending?)`
key (lib.rs, the closure passed to `sort_by`): compare the column values
(null when absent) and reverse the ordering for a descending key. -/
def rowCmp (key : String × Bool) (a b : Row) : Ordering :=
  let c := compare_values ((rowGet a key.1).getD .null) ((rowGet b key.1).getD .null)
  if key.2 then c else c.swap

/-- Insertion step of insertion sort, on the reversed prefix: the new element
`x` bubbles left past every element `y` with `cmp x y = Less` and stops at the
first element it does not compare less than.  The list argument and result
hold the sorted prefix in reverse order. -/
def insRev {α : Type} (cmp : α → α → Ordering) (x : α) : List α → List α
  | [] => [x]
  | y :: ys => if cmp x y = .lt then y :: insRev cmp x ys else x :: y :: ys

/-- Stable sort, modelling Rust `slice::sort_by`.  Rust's sort is stable, and
on small slices it is exactly this insertion sort (each element bubbles left
while it compares `Less` than its predecessor); every stable sort computes
the same permutation whenever the comparator is a total order. -/
def sortStable {α : Type} (cmp : α → α → Ordering) (l : List α) : List α :=
  (l.foldl (fun accRev x => insRev cmp x accRev) []).reverse

/-- ORDER BY stage of `Database::execute` (lib.rs): one stable sort per key,
iterating the key list in reverse (`query.order_by.iter().rev()`). -/
def orderStage (ob : List (String × Bool)) (rows : List Row) : List Row :=
  ob.reverse.foldl (fun rs key => sortStable (rowCmp key) rs) rows

/-- Projection stage of `Database::execute` (lib.rs): with a `*` in the select
list the output columns are the keys of the first row (none when no rows);
otherwise the named columns, absent columns becoming null. -/
def projectStage (select_cols : List String) (rows : List Row) : List Row :=
  let selected : List String :=
    if select_cols.contains "*" then
      match rows.head? with
      | some r => r.map (·.1)
      | none => []
    else select_cols
  rows.map (fun row =>
    selected.foldl (fun acc c => rowInsert acc c ((rowGet row c).getD .null)) [])

/-- LIMIT stage of `Database::execute` (lib.rs): `rows.truncate(l)`. -/
def limitStage (limit : Option Nat) (rows : List Row) : List Row :=
  match limit with
  | some l => rows.take l
  | none => rows

/-- Stages of `Database::execute` after the joins (lib.rs): GROUP BY,
ORDER BY, projection and LIMIT, in the fixed source order. -/
def postJoinStages (q : Query) (rows : List Row) : List Row :=
  let rows := if q.group_by.isEmpty then rows else apply_group_by rows q.group_by
  let rows := orderStage q.order_by rows
  let rows := projectStage q.select_cols rows
  limitStage q.limit rows

/-- Mirror of `Database::execute` (lib.rs): source fetch, WHERE, joins,
GROUP BY, ORDER BY, projection, LIMIT, in that fixed order. -/
def execute (db : Database) (q : Query) : Except String (List Row) :=
  match findTable db q.from_table with
  | none => .error ("Table not found: " ++ q.from_table)
  | some t =>
    match joinStage db q.joins (whereStage q.where_clause t.rows) with
    | .error e => .error e
    | .ok rows => .ok (postJoinStages q rows)

/-- Kind pairs for which `apply_binop` has an operator table: integer pairs,
string pairs and boolean pairs; every other pair falls to the catch-all null
arm. -/
def binopKindPair : Value → Value → Bool
  | .int _, .int _ => true
  | .string _, .string _ => true
  | .bool _, .bool _ => true
  | _, _ => false

/-- Kind pairs for which `compare_values` defines an ordering: integer pairs,
string pairs and float pairs; every other pair compares as `Equal`. -/
def orderedKindPair : Value → Value → Bool
  | .int _, .int _ => true
  | .string _, .string _ => true
  | .float _, .float _ => true
  | _, _ => false

/-!
Helper lemmas.
-/

/-- An `is_true` test is exactly an equality test against `Bool(true)`. -/
theorem is_true_iff (v : Value) : v.is_true = true ↔ v = Value.bool true := by
  cases v with
  | bool b => cases b <;> simp [Value.is_true]
  | int i => simp [Value.is_true]
  | float q => simp [Value.is_true]
  | string s => simp [Value.is_true]
  | null => simp [Value.is_true]

/-- Bool-level form of `is_true_iff`. -/
theorem is_true_eq_beq (v : Value) : v.is_true = (v == Value.bool true) := by
  cases v with
  | bool b => cases b <;> rfl
  | int i => rfl
  | float q => rfl
  | string s => rfl
  | null => rfl

/-- A guarded `some` equals `some m` exactly when the guard holds and the
payloads agree. -/
theorem ite_some_eq_some {α : Type} (p : Prop) [Decidable p] (a b : α) :
    ((if p then some a else none) = some b) ↔ p ∧ a = b := by
  split <;> simp_all

/-- Searching a filtered list finds the same element when every match of the
search predicate survives the filter. -/
theorem find?_filter_eq {α : Type} (l : List α) (p q : α → Bool)
    (h : ∀ x, q x = true → p x = true) :
    (l.filter p).find? q = l.find? q := by
  induction l with
  | nil => rfl
  | cons c l ih =>
    by_cases hp : p c
    · cases hq : q c
      · rw [List.filter_cons_of_pos hp, List.find?_cons_of_neg _ (by simp [hq]),
          List.find?_cons_of_neg _ (by simp [hq]), ih]
      · rw [List.filter_cons_of_pos hp, List.find?_cons_of_pos _ hq,
          List.find?_cons_of_pos _ hq]
    · have hq : q c = false := by
        cases hq2 : q c
        · rfl
        · exact absurd (h c hq2) hp
      rw [List.filter_cons_of_neg hp, List.find?_cons_of_neg _ (by simp [hq]), ih]

/-- Lookup after a `HashMap`-style insert: the inserted key reads back the new
value and every other key is unchanged. -/
theorem rowGet_rowInsert (acc : Row) (k k' : String) (v : Value) :
    rowGet (rowInsert acc k v) k' = if k' = k then some v else rowGet acc k' := by
  by_cases hk : k' = k
  · subst hk
    simp [rowGet, rowInsert, List.find?_cons_of_pos]
  · unfold rowGet rowInsert
    rw [List.find?_cons_of_neg _ (by simp [Ne.symm hk]), if_neg hk,
      find?_filter_eq acc _ _ (fun x hx => ?_)]
    simp only [beq_iff_eq] at hx
    simp [bne_iff_ne, hx, hk]

/-- A key bound nowhere in a row reads as `none`. -/
theorem rowGet_eq_none_of_not_mem (r : Row) (k : String)
    (h : k ∉ r.map Prod.fst) : rowGet r k = none := by
  unfold rowGet
  rw [List.find?_eq_none.mpr]
  · rfl
  · intro x hx
    simp only [beq_iff_eq]
    intro hxk
    exact h (List.mem_map.mpr ⟨x, hx, hxk⟩)

/-- Lookup in a merged row: bindings of the right row win, everything else
falls back to the left row.  The right row is assumed to have distinct keys,
as every Rust `HashMap` does. -/
theorem rowGet_rowExtend (l r : Row) (k : String)
    (h : (r.map Prod.fst).Nodup) :
    rowGet (rowExtend l r) k =
      match rowGet r k with
      | some v => some v
      | none => rowGet l k := by
  induction r generalizing l with
  | nil =>
    show rowGet l k = _
    have : rowGet ([] : Row) k = none := rfl
    rw [this]
  | cons p r ih =>
    obtain ⟨k0, v0⟩ := p
    have h2 : (k0 :: r.map Prod.fst).Nodup := by simpa using h
    have h' := List.nodup_cons.mp h2
    have step : rowGet (rowExtend (rowInsert l k0 v0) r) k =
        match rowGet r k with
        | some v => some v
        | none => rowGet (rowInsert l k0 v0) k := ih (rowInsert l k0 v0) h'.2
    show rowGet (rowExtend (rowInsert l k0 v0) r) k = _
    rw [step]
    by_cases hk : k = k0
    · subst hk
      rw [rowGet_eq_none_of_not_mem r k h'.1]
      have hr : rowGet (((k, v0) :: r : List (String × Value)) : Row) k = some v0 := by
        simp [rowGet, List.find?_cons_of_pos]
      rw [hr, rowGet_rowInsert, if_pos rfl]
    · have hr : rowGet (((k0, v0) :: r : List (String × Value)) : Row) k = rowGet r k := by
        unfold rowGet
        rw [List.find?_cons_of_neg _ (by simp [Ne.symm hk])]
      rw [hr]
      cases hrk : rowGet r k
      · simp only [rowGet_rowInsert, if_neg hk]
      · rfl

/-- When every joined table exists, the join stage succeeds. -/
theorem joinStage_ok (db : Database) (js : List Join) (rows : List Row)
    (h : ∀ j ∈ js, (findTable db j.table).isSome = true) :
    ∃ out, joinStage db js rows = .ok out := by
  induction js generalizing rows with
  | nil => exact ⟨rows, rfl⟩
  | cons j js ih =>
    obtain ⟨jt, hjt⟩ := Option.isSome_iff_exists.mp (h j (.head js))
    have hstep : joinStep db j rows =
        .ok (rows.flatMap (fun left => jt.rows.filterMap (fun right =>
          let merged := rowExtend left right
          if (eval_expr j.onExpr merged).is_true then some merged else none))) := by
      simp only [joinStep, hjt]
    obtain ⟨out, hout⟩ := ih (rows.flatMap (fun left => jt.rows.filterMap (fun right =>
        let merged := rowExtend left right
        if (eval_expr j.onExpr merged).is_true then some merged else none)))
      (fun j' hj' => h j' (.tail _ hj'))
    refine ⟨out, ?_⟩
    show (match joinStep db j rows with
          | Except.error e => Except.error e
          | Except.ok rows2 => joinStage db js rows2) = _
    rw [hstep]
    exact hout

/-- A missing joined table forces the join stage to fail. -/
theorem joinStage_error_of_missing (db : Database) (js : List Join)
    (rows : List Row) (j : Join) (hj : j ∈ js)
    (hn : findTable db j.table = none) :
    ∃ e, joinStage db js rows = .error e := by
  induction js generalizing rows with
  | nil => exact absurd hj (List.not_mem_nil j)
  | cons j' js ih =>
    cases hft : findTable db j'.table with
    | none =>
      refine ⟨"Table not found: " ++ j'.table, ?_⟩
      show (match joinStep db j' rows with
            | Except.error e => Except.error e
            | Except.ok rows2 => joinStage db js rows2) = _
      rw [show joinStep db j' rows = .error ("Table not found: " ++ j'.table) by
        simp only [joinStep, hft]]
    | some jt =>
      rcases List.mem_cons.mp hj with rfl | hj'
      · exact absurd hft (by simp [hn])
      · obtain ⟨e, he⟩ := ih (rows.flatMap (fun left =>
          jt.rows.filterMap (fun right =>
            let merged := rowExtend left right
            if (eval_expr j'.onExpr merged).is_true then some merged else none)))
          hj'
        refine ⟨e, ?_⟩
        show (match joinStep db j' rows with
              | Except.error e => Except.error e
              | Except.ok rows2 => joinStage db js rows2) = _
        rw [show joinStep db j' rows =
            .ok (rows.flatMap (fun left => jt.rows.filterMap (fun right =>
              let merged := rowExtend left right
              if (eval_expr j'.onExpr merged).is_true then some merged else none)))
          by simp only [joinStep, hft]]
        exact he

/-- A failing join stage names a missing joined table in its error. -/
theorem joinStage_error (db : Database) (js : List Join) (rows : List Row)
    (e : String) (h : joinStage db js rows = .error e) :
    ∃ j ∈ js, findTable db j.table = none ∧ e = "Table not found: " ++ j.table := by
  induction js generalizing rows with
  | nil => exact absurd h (by simp [joinStage])
  | cons j js ih =>
    have h' : (match joinStep db j rows with
          | Except.error e => Except.error e
          | Except.ok rows2 => joinStage db js rows2) = Except.error e := h
    cases hft : findTable db j.table with
    | none =>
      rw [show joinStep db j rows = .error ("Table not found: " ++ j.table) by
        simp only [joinStep, hft]] at h'
      exact ⟨j, .head js, hft, (Except.error.injEq _ _).mp h'.symm⟩
    | some jt =>
      rw [show joinStep db j rows =
          .ok (rows.flatMap (fun left => jt.rows.filterMap (fun right =>
            let merged := rowExtend left right
            if (eval_expr j.onExpr merged).is_true then some merged else none)))
        by simp only [joinStep, hft]] at h'
      obtain ⟨j', hj', hn, he⟩ := ih _ h'
      exact ⟨j', .tail _ hj', hn, he⟩

/-- Characterization of `ltCmp` returning `lt`. -/
theorem ltCmp_lt_iff {α : Type} [LinearOrder α] (x y : α) :
    ltCmp x y = .lt ↔ x < y := by
  rcases lt_trichotomy x y with h | h | h
  · simp [ltCmp, h]
  · simp [ltCmp, h, lt_irrefl]
  · simp [ltCmp, h, lt_asymm h]

/-- Characterization of `ltCmp` returning `gt`. -/
theorem ltCmp_gt_iff {α : Type} [LinearOrder α] (x y : α) :
    ltCmp x y = .gt ↔ y < x := by
  rcases lt_trichotomy x y with h | h | h
  · simp [ltCmp, h, lt_asymm h]
  · simp [ltCmp, h, lt_irrefl]
  · simp [ltCmp, h, lt_asymm h]

/-- Characterization of `ltCmp` returning `eq`. -/
theorem ltCmp_eq_iff {α : Type} [LinearOrder α] (x y : α) :
    ltCmp x y = .eq ↔ x = y := by
  rcases lt_trichotomy x y with h | h | h
  · simp [ltCmp, h, ne_of_lt h]
  · simp [ltCmp, h, lt_irrefl]
  · simp [ltCmp, h, lt_asymm h, (ne_of_lt h).symm]

/-- The float branch of `compare_values` is `ltCmp` on the rational values. -/
theorem compare_values_float (x y : Rat) :
    compare_values (.float x) (.float y) = ltCmp x y := rfl

/-- Swapping the arguments of `ltCmp` swaps the resulting ordering. -/
theorem ltCmp_swap {α : Type} [LinearOrder α] (x y : α) :
    ltCmp y x = (ltCmp x y).swap := by
  rcases lt_trichotomy x y with h | h | h
  · rw [show ltCmp x y = .lt from (ltCmp_lt_iff x y).mpr h,
      show ltCmp y x = .gt from (ltCmp_gt_iff y x).mpr h]
    rfl
  · subst h
    rw [show ltCmp x x = .eq from (ltCmp_eq_iff x x).mpr rfl]
    rfl
  · rw [show ltCmp x y = .gt from (ltCmp_gt_iff x y).mpr h,
      show ltCmp y x = .lt from (ltCmp_lt_iff y x).mpr h]
    rfl

/-- Swapping the arguments of `compare_values` swaps the resulting ordering. -/
theorem compare_values_swap (a b : Value) :
    compare_values b a = (compare_values a b).swap := by
  cases a <;> cases b <;>
    first
      | rfl
      | exact ltCmp_swap ..

/-- Swapping the rows compared by `rowCmp` swaps the resulting ordering. -/
theorem rowCmp_swap (key : String × Bool) (a b : Row) :
    rowCmp key b a = (rowCmp key a b).swap := by
  obtain ⟨kc, asc⟩ := key
  cases asc
  · show (compare_values ((rowGet b kc).getD .null) ((rowGet a kc).getD .null)).swap =
      ((compare_values ((rowGet a kc).getD .null) ((rowGet b kc).getD .null)).swap).swap
    rw [compare_values_swap]
  · show compare_values ((rowGet b kc).getD .null) ((rowGet a kc).getD .null) =
      (compare_values ((rowGet a kc).getD .null) ((rowGet b kc).getD .null)).swap
    exact compare_values_swap _ _

/-- The row comparator never calls two rows each less than the other. -/
theorem rowCmp_asym (key : String × Bool) (a b : Row)
    (h : rowCmp key a b = .lt) : rowCmp key b a ≠ .lt := by
  rw [rowCmp_swap, h]
  decide

/-- Inserting into the reversed prefix preserves the no-bubble chain, given
that the comparator is asymmetric on `Less`. -/
theorem chain'_insRev {α : Type} (cmp : α → α → Ordering)
    (hA : ∀ a b, cmp a b = .lt → cmp b a ≠ .lt) (x : α) (l : List α)
    (h : l.Chain' (fun a b => cmp a b ≠ .lt)) :
    (insRev cmp x l).Chain' (fun a b => cmp a b ≠ .lt) := by
  induction l with
  | nil => simp [insRev]
  | cons y ys ih =>
    by_cases hxy : cmp x y = .lt
    · rw [show insRev cmp x (y :: ys) = y :: insRev cmp x ys by
        simp [insRev, hxy]]
      rw [List.chain'_cons']
      refine ⟨?_, ih (h.tail)⟩
      intro b hb
      cases ys with
      | nil =>
        simp [insRev] at hb
        exact hb ▸ hA x y hxy
      | cons z zs =>
        by_cases hxz : cmp x z = .lt
        · rw [show insRev cmp x (z :: zs) = z :: insRev cmp x zs by
            simp [insRev, hxz]] at hb
          simp at hb
          exact hb ▸ (List.chain'_cons.mp h).1
        · rw [show insRev cmp x (z :: zs) = x :: z :: zs by
            simp [insRev, hxz]] at hb
          simp at hb
          exact hb ▸ hA x y hxy
    · rw [show insRev cmp x (y :: ys) = x :: y :: ys by simp [insRev, hxy]]
      exact List.chain'_cons.mpr ⟨hxy, h⟩

/-- The accumulated reversed list of the insertion-sort fold is always a
no-bubble chain. -/
theorem chain'_foldl_insRev {α : Type} (cmp : α → α → Ordering)
    (hA : ∀ a b, cmp a b = .lt → cmp b a ≠ .lt) (l acc : List α)
    (hacc : acc.Chain' (fun a b => cmp a b ≠ .lt)) :
    (List.foldl (fun a x => insRev cmp x a) acc l).Chain'
      (fun a b => cmp a b ≠ .lt) := by
  induction l generalizing acc with
  | nil => exact hacc
  | cons x xs ih => exact ih _ (chain'_insRev cmp hA x acc hacc)

/-- The output of the stable sort is a chain in which no element compares
`Less` than its predecessor. -/
theorem sortStable_chain' {α : Type} (cmp : α → α → Ordering)
    (hA : ∀ a b, cmp a b = .lt → cmp b a ≠ .lt) (l : List α) :
    (sortStable cmp l).Chain' (fun a b => cmp b a ≠ .lt) := by
  unfold sortStable
  rw [List.chain'_reverse]
  exact chain'_foldl_insRev cmp hA l [] (by simp)

/-- On an input that is already a no-bubble chain the insertion-sort fold
appends every element at the front of the reversed accumulator. -/
theorem foldl_insRev_of_chain {α : Type} (cmp : α → α → Ordering)
    (l : List α) : ∀ acc : List α,
    (acc.reverse ++ l).Chain' (fun a b => cmp b a ≠ .lt) →
    List.foldl (fun a x => insRev cmp x a) acc l = l.reverse ++ acc := by
  induction l with
  | nil => intro acc _; simp
  | cons x xs ih =>
    intro acc h
    have hstep : insRev cmp x acc = x :: acc := by
      cases acc with
      | nil => rfl
      | cons y ys =>
        have hlast : ((y :: ys).reverse).getLast? = some y := by
          simp [List.getLast?_reverse]
        have hy : cmp x y ≠ .lt := by
          have happ := List.chain'_append.mp h
          exact happ.2.2 y (by simp [hlast]) x (by simp)
        simp [insRev, hy]
    show List.foldl (fun a x => insRev cmp x a) (insRev cmp x acc) xs = _
    have hch : ((x :: acc).reverse ++ xs).Chain' (fun a b => cmp b a ≠ .lt) := by
      rw [List.reverse_cons, List.append_assoc]
      simpa using h
    rw [hstep, ih (x :: acc) hch, List.reverse_cons, List.append_assoc]
    simp

/-- A list that is already a no-bubble chain is a fixed point of the stable
sort. -/
theorem sortStable_of_chain' {α : Type} (cmp : α → α → Ordering) (l : List α)
    (h : l.Chain' (fun a b => cmp b a ≠ .lt)) : sortStable cmp l = l := by
  unfold sortStable
  rw [foldl_insRev_of_chain cmp l [] (by simpa using h)]
  simp

/-- The stable sort is idempotent for any comparator that is asymmetric on
`Less`. -/
theorem sortStable_idem {α : Type} (cmp : α → α → Ordering)
    (hA : ∀ a b, cmp a b = .lt → cmp b a ≠ .lt) (l : List α) :
    sortStable cmp (sortStable cmp l) = sortStable cmp l :=
  sortStable_of_chain' cmp _ (sortStable_chain' cmp hA l)

/-- Inserting an element of the filter class appends it exactly at the front
of the reversed filtered prefix, when it compares `Less` than no element of
the class. -/
theorem filter_insRev_pos {α : Type} (cmp : α → α → Ordering) (p : α → Bool)
    (x : α) (l : List α) (hx : p x = true)
    (hp : ∀ y, p y = true → cmp x y ≠ .lt) :
    (insRev cmp x l).filter p = x :: l.filter p := by
  induction l with
  | nil => simp [insRev, hx]
  | cons y ys ih =>
    by_cases hxy : cmp x y = .lt
    · have hy : p y = false := by
        cases hy2 : p y
        · rfl
        · exact absurd hxy (hp y hy2)
      rw [show insRev cmp x (y :: ys) = y :: insRev cmp x ys by
        simp [insRev, hxy]]
      simp [List.filter_cons, hy, ih]
    · rw [show insRev cmp x (y :: ys) = x :: y :: ys by simp [insRev, hxy]]
      simp [List.filter_cons, hx]

/-- Inserting an element outside the filter class leaves the filtered
reversed prefix unchanged. -/
theorem filter_insRev_neg {α : Type} (cmp : α → α → Ordering) (p : α → Bool)
    (x : α) (l : List α) (hx : p x = false) :
    (insRev cmp x l).filter p = l.filter p := by
  induction l with
  | nil => simp [insRev, hx]
  | cons y ys ih =>
    by_cases hxy : cmp x y = .lt
    · rw [show insRev cmp x (y :: ys) = y :: insRev cmp x ys by
        simp [insRev, hxy]]
      simp [List.filter_cons, ih]
    · rw [show insRev cmp x (y :: ys) = x :: y :: ys by simp [insRev, hxy]]
      simp [List.filter_cons, hx]

/-- Stability of the sort: the subsequence of any class of mutually
non-`Less` elements is preserved by the stable sort. -/
theorem sortStable_filter {α : Type} (cmp : α → α → Ordering) (p : α → Bool)
    (l : List α) (Hp : ∀ a b, p a = true → p b = true → cmp a b ≠ .lt) :
    (sortStable cmp l).filter p = l.filter p := by
  have aux : ∀ (l2 acc : List α),
      (List.foldl (fun a x => insRev cmp x a) acc l2).filter p =
        (l2.filter p).reverse ++ acc.filter p := by
    intro l2
    induction l2 with
    | nil => intro acc; simp
    | cons x xs ih =>
      intro acc
      show (List.foldl (fun a x => insRev cmp x a) (insRev cmp x acc) xs).filter p = _
      rw [ih (insRev cmp x acc)]
      cases hx : p x
      · rw [filter_insRev_neg cmp p x acc hx]
        simp [List.filter_cons, hx]
      · rw [filter_insRev_pos cmp p x acc hx (fun y hy => Hp x y hx hy)]
        simp [List.filter_cons, hx]
  unfold sortStable
  rw [List.filter_reverse, aux l []]
  simp

/-- A consumed prefix of matching characters followed by a failing delimiter:
the delimiter is consumed and discarded. -/
theorem takeWhileEat_append (p : Char → Bool) (l₁ : List Char) (c : Char)
    (l₂ : List Char) (h1 : ∀ x ∈ l₁, p x = true) (hc : p c = false) :
    takeWhileEat p (l₁ ++ c :: l₂) = (l₁, l₂) := by
  induction l₁ with
  | nil => simp [takeWhileEat, hc]
  | cons a l₁ ih =>
    have ha : p a = true := h1 a (.head l₁)
    simp [takeWhileEat, ha, ih (fun x hx => h1 x (.tail a hx))]

/-- When every character matches, `take_while` consumes the whole input. -/
theorem takeWhileEat_all (p : Char → Bool) (l : List Char)
    (h : ∀ x ∈ l, p x = true) : takeWhileEat p l = (l, []) := by
  induction l with
  | nil => rfl
  | cons a l ih =>
    have ha : p a = true := h a (.head l)
    simp [takeWhileEat, ha, ih (fun x hx => h x (.tail a hx))]

/-- Tokenizing the empty character list yields no tokens at any fuel. -/
theorem tokenizeAux_nil (fuel : Nat) : tokenizeAux fuel [] = [] := by
  cases fuel <;> rfl

/-- A character heading the identifier branch also satisfies the identifier
continuation class. -/
theorem identChar_of_identHeadChar (c : Char) (h : identHeadChar c = true) :
    identChar c = true := by
  simp only [identHeadChar, Bool.and_eq_true, Bool.or_eq_true] at h
  rcases h.2 with ha | hu
  · simp [identChar, Char.isAlphanum, ha]
  · simp [identChar, hu]

/-- One step of the tokenizer loop on a character taking the identifier
branch: it collects the maximal identifier run (consuming the delimiter that
ends it) and emits the corresponding word token. -/
theorem tokenizeAux_ident_step (fuel : Nat) (c : Char) (rest : List Char)
    (hg : identHeadChar c = true) :
    tokenizeAux (fuel + 1) (c :: rest) =
      wordToken (String.mk (takeWhileEat identChar (c :: rest)).1) ::
        tokenizeAux fuel (takeWhileEat identChar (c :: rest)).2 := by
  simp only [identHeadChar, Bool.and_eq_true, Bool.not_eq_true'] at hg
  obtain ⟨⟨⟨⟨⟨⟨⟨hws, hcm⟩, hst⟩, hlp⟩, hrp⟩, hq⟩, hd⟩, ha⟩ := hg
  simp [tokenizeAux, hws, hcm, hst, hlp, hrp, hq, hd, ha]

/-!
Claim theorems.
-/

/-- C1: the specified round-trip scenario fails at the parsing step.  In
`tokenize`, `take_while` consumes the character that ends an identifier, so
the comma of `name, age` is consumed and discarded; the select list parses as
`[NAME]` alone and the parser then fails to find `FROM`, returning the error
`Expected From` instead of a query that could yield the row
`{name: Alice, age: 30}`. -/
theorem c1_round_trip_parse_fails :
    parse "SELECT name, age FROM users WHERE age > 28 ORDER BY age DESC" =
      RResult.error "Expected From" := rfl

/-- C2: parsing does not always return a query or a descriptive error: on a
numeric literal with two decimal points, and on an integer literal exceeding
the 64-bit range, `parse_primary` reaches `num.parse().unwrap()` with a failed
parse and panics (`fatal` in the embedding). -/
theorem c2_parse_panics_on_malformed_numbers :
    parse "SELECT A FROM T WHERE X = 1.2.3" = RResult.fatal ∧
    parse "SELECT A FROM T WHERE X = 99999999999999999999" = RResult.fatal :=
  ⟨rfl, rfl⟩

/-- C3 counterexample: the tokenizer does not emit `users.id` as one
identifier token `USERS.ID`; it emits `Ident USERS` (the dot is consumed and
discarded by `take_while`) followed by `Ident ID`. -/
theorem c3_counterexample :
    tokenize "users.id" = [Token.Ident "USERS", Token.Ident "ID"] ∧
    (tokenize "users.id" == [Token.Ident "USERS.ID"]) = false := by
  refine ⟨rfl, ?_⟩
  decide

/-- C9 counterexample: a malformed limit number does not make `parse` fail.
`LIMIT 1.5` parses successfully into a query whose limit is `None`
(`n.parse().ok()` silently drops the failure). -/
theorem c9_counterexample :
    parse "SELECT A FROM T LIMIT 1.5" =
      RResult.ok ⟨["A"], "T", [], none, [], [], none⟩ := rfl

/-- C10 counterexample: a chained comparison does not make `parse` fail.
`SELECT X FROM T WHERE A = B = C` parses successfully: the WHERE clause is
`A = B` and the leftover tokens `= C` are silently ignored, because
`parse_query` never requires the token stream to be exhausted. -/
theorem c10_counterexample :
    parse "SELECT X FROM T WHERE A = B = C" =
      RResult.ok ⟨["X"], "T", [],
        some (Expr.BinOp (Expr.Column "A") "=" (Expr.Column "B")),
        [], [], none⟩ := rfl

/-- C10 amended: on a chained comparison the parser parses only `a = b`, and
the leftover `= c` does not cause any error: `parse_query` returns the query
with the leftover tokens unconsumed, and `parse` discards them and succeeds. -/
theorem c10_amended_leftover_ignored :
    parse_query 88 (tokenize "SELECT X FROM T WHERE A = B = C") =
      POut.ok ⟨["X"], "T", [],
          some (Expr.BinOp (Expr.Column "A") "=" (Expr.Column "B")),
          [], [], none⟩
        [Token.Op "=", Token.Ident "C"] ∧
    parse "SELECT X FROM T WHERE A = B = C" =
      RResult.ok ⟨["X"], "T", [],
        some (Expr.BinOp (Expr.Column "A") "=" (Expr.Column "B")),
        [], [], none⟩ :=
  ⟨rfl, rfl⟩

/-- C9 amended: when the token after `LIMIT` is a numeric token that is not a
valid count, `parse_query` does not fail; it returns the query with
`limit = None` (the failure of `n.parse()` is silently dropped by `.ok()`).
Only a non-numeric token after `LIMIT` raises `Expected limit number`. -/
theorem c9_amended_malformed_limit_dropped (s : String)
    (h : rustParseUsize s = none) :
    parse_query 56
        [Token.Select, Token.Ident "A", Token.From, Token.Ident "T",
         Token.Limit, Token.Number s] =
      POut.ok ⟨["A"], "T", [], none, [], [], none⟩ [] := by
  simp [parse_query, expectTok, pbind, parse_select_list, sel_loop, join_loop,
    tokenDebug, h]

/-- Witness for the amended C9 claim at the concrete malformed limit `1.5`. -/
theorem c9_amended_witness :
    rustParseUsize "1.5" = none ∧
    parse_query 56
        [Token.Select, Token.Ident "A", Token.From, Token.Ident "T",
         Token.Limit, Token.Number "1.5"] =
      POut.ok ⟨["A"], "T", [], none, [], [], none⟩ [] :=
  ⟨by decide, c9_amended_malformed_limit_dropped "1.5" (by decide)⟩

/-- C5: binary-operator evaluation follows the strict kind-matched table:
integer pairs support exactly the six comparison operators, string pairs only
equality and inequality, boolean pairs only AND and OR; every other kind
combination yields null regardless of operator, and a `FuncCall` expression
always evaluates to null. -/
theorem c5_binop_kind_table :
    (∀ a b : Int,
      apply_binop (.int a) "=" (.int b) = .bool (a = b) ∧
      apply_binop (.int a) "!=" (.int b) = .bool (a ≠ b) ∧
      apply_binop (.int a) "<" (.int b) = .bool (a < b) ∧
      apply_binop (.int a) ">" (.int b) = .bool (a > b) ∧
      apply_binop (.int a) "<=" (.int b) = .bool (a ≤ b) ∧
      apply_binop (.int a) ">=" (.int b) = .bool (a ≥ b)) ∧
    (∀ (a b : Int) (op : String),
      op ∉ (["=", "!=", "<", ">", "<=", ">="] : List String) →
      apply_binop (.int a) op (.int b) = .null) ∧
    (∀ a b : String,
      apply_binop (.string a) "=" (.string b) = .bool (a = b) ∧
      apply_binop (.string a) "!=" (.string b) = .bool (a ≠ b)) ∧
    (∀ (a b : String) (op : String), op ∉ (["=", "!="] : List String) →
      apply_binop (.string a) op (.string b) = .null) ∧
    (∀ a b : Bool,
      apply_binop (.bool a) "AND" (.bool b) = .bool (a && b) ∧
      apply_binop (.bool a) "OR" (.bool b) = .bool (a || b)) ∧
    (∀ (a b : Bool) (op : String), op ∉ (["AND", "OR"] : List String) →
      apply_binop (.bool a) op (.bool b) = .null) ∧
    (∀ (v w : Value) (op : String), binopKindPair v w = false →
      apply_binop v op w = .null) ∧
    (∀ (name : String) (args : List Expr) (row : Row),
      eval_expr (.FuncCall name args) row = .null) := by
  refine ⟨fun a b => ⟨rfl, rfl, rfl, rfl, rfl, rfl⟩, ?_, fun a b => ⟨rfl, rfl⟩,
    ?_, fun a b => ⟨rfl, rfl⟩, ?_, ?_, fun name args row => rfl⟩
  · intro a b op h
    simp only [apply_binop]
    split <;> simp_all
  · intro a b op h
    simp only [apply_binop]
    split <;> simp_all
  · intro a b op h
    simp only [apply_binop]
    split <;> simp_all
  · intro v w op h
    cases v <;> cases w <;> simp_all [apply_binop, binopKindPair]

/-- Witness for C5 at concrete inputs: an unsupported operator on integers,
strings and booleans, and mismatched or unordered kind pairs, all yield null. -/
theorem c5_witness :
    apply_binop (.int 1) "AND" (.int 2) = .null ∧
    apply_binop (.string "A") "<" (.string "B") = .null ∧
    apply_binop (.bool true) "=" (.bool true) = .null ∧
    apply_binop (.float 1) "=" (.float 1) = .null ∧
    apply_binop (.int 1) "=" .null = .null :=
  ⟨c5_binop_kind_table.2.1 1 2 "AND" (by decide),
   c5_binop_kind_table.2.2.2.1 "A" "B" "<" (by decide),
   c5_binop_kind_table.2.2.2.2.2.1 true true "=" (by decide),
   c5_binop_kind_table.2.2.2.2.2.2.1 (.float 1) (.float 1) "=" rfl,
   c5_binop_kind_table.2.2.2.2.2.2.1 (.int 1) .null "=" rfl⟩

/-- C4: when the query has a WHERE expression and the source table exists,
`execute` filters the source table's rows with it before any joins, and the
filter retains exactly the rows on which the expression evaluates to
`Bool(true)`; rows evaluating to anything else are excluded. -/
theorem c4_where_filters_before_joins (db : Database) (q : Query) (w : Expr)
    (t : Table) (hw : q.where_clause = some w)
    (ht : findTable db q.from_table = some t) :
    execute db q =
      (match joinStage db q.joins
          (t.rows.filter fun r => eval_expr w r == Value.bool true) with
       | .error e => .error e
       | .ok rows => .ok (postJoinStages q rows)) ∧
    ∀ (rows : List Row) (r : Row),
      r ∈ whereStage (some w) rows ↔ r ∈ rows ∧ eval_expr w r = Value.bool true := by
  have hfun : (fun r => (eval_expr w r).is_true) =
      (fun r => eval_expr w r == Value.bool true) := by
    funext r
    exact is_true_eq_beq (eval_expr w r)
  constructor
  · simp only [execute, ht, hw, whereStage, hfun]
  · intro rows r
    simp [whereStage, List.mem_filter, is_true_iff]

/-- Witness for C4: a one-column table with rows `A = 1` and `A = 2` and the
filter `A > 1`; only the second row survives into the (empty) join stage and
the final result. -/
theorem c4_witness :
    execute ⟨[("T", ⟨"T", ["A"], [[("A", .int 1)], [("A", .int 2)]]⟩)]⟩
        ⟨["A"], "T", [], some (.BinOp (.Column "A") ">" (.Literal (.int 1))),
         [], [], none⟩ = .ok [[("A", Value.int 2)]] ∧
    ([("A", Value.int 1)] ∈
        whereStage (some (.BinOp (.Column "A") ">" (.Literal (.int 1))))
          [[("A", Value.int 1)], [("A", Value.int 2)]] ↔
      [("A", Value.int 1)] ∈ ([[("A", Value.int 1)], [("A", Value.int 2)]] : List Row) ∧
        eval_expr (.BinOp (.Column "A") ">" (.Literal (.int 1)))
          [("A", Value.int 1)] = Value.bool true) := by
  have h := c4_where_filters_before_joins
    ⟨[("T", ⟨"T", ["A"], [[("A", .int 1)], [("A", .int 2)]]⟩)]⟩
    ⟨["A"], "T", [], some (.BinOp (.Column "A") ">" (.Literal (.int 1))),
     [], [], none⟩
    (.BinOp (.Column "A") ">" (.Literal (.int 1)))
    ⟨"T", ["A"], [[("A", .int 1)], [("A", .int 2)]]⟩ rfl rfl
  exact ⟨h.1.trans rfl, h.2 [[("A", Value.int 1)], [("A", Value.int 2)]]
    [("A", Value.int 1)]⟩

/-- C6: joins are unindexed nested loops applied in declaration order.  Each
join's successful output is the next join's left input; for a single join over
an existing table, the output rows are exactly the merged rows (left row
overlaid with the right row, with the right row's bindings winning on shared
keys) on which the ON expression evaluates to `Bool(true)`. -/
theorem c6_nested_loop_joins (db : Database) :
    (∀ (j : Join) (js : List Join) (rows rows2 : List Row),
      joinStep db j rows = .ok rows2 →
      joinStage db (j :: js) rows = joinStage db js rows2) ∧
    (∀ (j : Join) (jt : Table) (rows : List Row),
      findTable db j.table = some jt →
      ∃ out, joinStep db j rows = .ok out ∧
        ∀ m, m ∈ out ↔ ∃ l ∈ rows, ∃ r ∈ jt.rows,
          m = rowExtend l r ∧ eval_expr j.onExpr m = Value.bool true) ∧
    (∀ (l r : Row) (k : String), (r.map Prod.fst).Nodup →
      (∀ v, rowGet r k = some v → rowGet (rowExtend l r) k = some v) ∧
      (rowGet r k = none → rowGet (rowExtend l r) k = rowGet l k)) := by
  refine ⟨?_, ?_, ?_⟩
  · intro j js rows rows2 hstep
    show (match joinStep db j rows with
          | Except.error e => Except.error e
          | Except.ok rows2 => joinStage db js rows2) = _
    rw [hstep]
  · intro j jt rows hft
    refine ⟨rows.flatMap (fun left => jt.rows.filterMap (fun right =>
        let merged := rowExtend left right
        if (eval_expr j.onExpr merged).is_true then some merged else none)),
      by simp only [joinStep, hft], ?_⟩
    intro m
    simp only [List.mem_flatMap, List.mem_filterMap]
    constructor
    · rintro ⟨l, hl, r, hr, hif⟩
      rw [ite_some_eq_some] at hif
      obtain ⟨htrue, hm⟩ := hif
      subst hm
      exact ⟨l, hl, r, hr, rfl, (is_true_iff _).mp htrue⟩
    · rintro ⟨l, hl, r, hr, hm, hev⟩
      refine ⟨l, hl, r, hr, ?_⟩
      rw [ite_some_eq_some]
      exact ⟨(is_true_iff _).mpr (hm ▸ hev), hm.symm⟩
  · intro l r k hnd
    constructor
    · intro v hv
      rw [rowGet_rowExtend l r k hnd, hv]
    · intro hv
      rw [rowGet_rowExtend l r k hnd, hv]

/-- Witness for C6 with a one-row left input and a one-row joined table: the
join step pairs them, the merged row keeps both bindings with the right side
winning, and the staged join feeds its output to the remaining (empty) join
list. -/
theorem c6_witness :
    joinStage (⟨[("O", ⟨"O", ["B"], [[("B", .int 1)]]⟩)]⟩ : Database)
        [⟨"O", .BinOp (.Column "A") "=" (.Column "B")⟩]
        [[("A", .int 1)]] =
      joinStage ⟨[("O", ⟨"O", ["B"], [[("B", .int 1)]]⟩)]⟩ []
        [[("B", Value.int 1), ("A", Value.int 1)]] ∧
    (∃ out,
      joinStep (⟨[("O", ⟨"O", ["B"], [[("B", .int 1)]]⟩)]⟩ : Database)
          ⟨"O", .BinOp (.Column "A") "=" (.Column "B")⟩ [[("A", .int 1)]] =
        .ok out ∧
      ∀ m, m ∈ out ↔ ∃ l ∈ ([[("A", .int 1)]] : List Row),
        ∃ r ∈ ([[("B", .int 1)]] : List Row),
          m = rowExtend l r ∧
          eval_expr (Expr.BinOp (.Column "A") "=" (.Column "B")) m =
            Value.bool true) ∧
    rowGet (rowExtend [("A", .int 1), ("B", .int 7)] [("B", .int 2)]) "B" =
      some (Value.int 2) := by
  have h := c6_nested_loop_joins ⟨[("O", ⟨"O", ["B"], [[("B", .int 1)]]⟩)]⟩
  refine ⟨h.1 ⟨"O", .BinOp (.Column "A") "=" (.Column "B")⟩ []
      [[("A", .int 1)]] [[("B", Value.int 1), ("A", Value.int 1)]] rfl,
    h.2.1 ⟨"O", .BinOp (.Column "A") "=" (.Column "B")⟩
      ⟨"O", ["B"], [[("B", .int 1)]]⟩ [[("A", .int 1)]] rfl, ?_⟩
  exact (h.2.2 [("A", .int 1), ("B", .int 7)] [("B", .int 2)] "B"
    (by decide)).1 (Value.int 2) rfl

/-- C7: `execute` fails exactly when the source table or a joined table is
absent from the store, and the error names that missing table; when every
referenced table exists, `execute` returns a row sequence (all other
anomalies degrade to nulls or empty output inside the total post-join
stages).  The four conjuncts give both directions of the iff: a missing
source table errors, a present source with every join table present
succeeds, every error names a missing referenced table, and a missing joined
table (source present) also forces an error. -/
theorem c7_execute_error_iff_missing_table (db : Database) (q : Query) :
    (findTable db q.from_table = none →
      execute db q = .error ("Table not found: " ++ q.from_table)) ∧
    ((findTable db q.from_table).isSome = true →
      (∀ j ∈ q.joins, (findTable db j.table).isSome = true) →
      ∃ rows, execute db q = .ok rows) ∧
    (∀ e, execute db q = .error e →
      ∃ name, findTable db name = none ∧
        (name = q.from_table ∨ name ∈ q.joins.map Join.table) ∧
        e = "Table not found: " ++ name) ∧
    (∀ (t : Table) (j : Join), findTable db q.from_table = some t →
      j ∈ q.joins → findTable db j.table = none →
      ∃ e, execute db q = .error e) := by
  refine ⟨?_, ?_, ?_, ?_⟩
  · intro h
    simp only [execute, h]
  · intro h hj
    obtain ⟨t, ht⟩ := Option.isSome_iff_exists.mp h
    obtain ⟨out, hout⟩ :=
      joinStage_ok db q.joins (whereStage q.where_clause t.rows) hj
    refine ⟨postJoinStages q out, ?_⟩
    simp only [execute, ht, hout]
  · intro e he
    rw [execute] at he
    cases ht : findTable db q.from_table with
    | none =>
      simp only [ht] at he
      exact ⟨q.from_table, ht, Or.inl rfl, ((Except.error.injEq _ _).mp he).symm⟩
    | some t =>
      simp only [ht] at he
      cases hjs : joinStage db q.joins (whereStage q.where_clause t.rows) with
      | error e' =>
        simp only [hjs] at he
        obtain ⟨j, hj, hn, hname⟩ := joinStage_error db q.joins _ e' hjs
        exact ⟨j.table, hn,
          Or.inr (List.mem_map.mpr ⟨j, hj, rfl⟩),
          ((Except.error.injEq _ _).mp he).symm.trans hname⟩
      | ok rows =>
        simp only [hjs] at he
        exact absurd he (by simp)
  · intro t j ht hj hn
    obtain ⟨e, he⟩ := joinStage_error_of_missing db q.joins
      (whereStage q.where_clause t.rows) j hj hn
    refine ⟨e, ?_⟩
    simp only [execute, ht, he]

/-- Witness for C7: an empty store makes `execute` fail naming the missing
table `T`; a store holding `T` makes the same query succeed; and with `T`
present, joining the absent table `MISSING` makes `execute` fail. -/
theorem c7_witness :
    execute ⟨[]⟩ ⟨["A"], "T", [], none, [], [], none⟩ =
      .error "Table not found: T" ∧
    (∃ rows,
      execute ⟨[("T", ⟨"T", ["A"], [[("A", .int 1)]]⟩)]⟩
        ⟨["A"], "T", [], none, [], [], none⟩ = .ok rows) ∧
    ∃ e,
      execute ⟨[("T", ⟨"T", ["A"], [[("A", .int 1)]]⟩)]⟩
        ⟨["A"], "T", [⟨"MISSING", .Literal (.bool true)⟩], none, [], [], none⟩ =
        .error e :=
  ⟨(c7_execute_error_iff_missing_table ⟨[]⟩
      ⟨["A"], "T", [], none, [], [], none⟩).1 rfl,
   (c7_execute_error_iff_missing_table ⟨[("T", ⟨"T", ["A"], [[("A", .int 1)]]⟩)]⟩
      ⟨["A"], "T", [], none, [], [], none⟩).2.1 rfl (by simp),
   (c7_execute_error_iff_missing_table ⟨[("T", ⟨"T", ["A"], [[("A", .int 1)]]⟩)]⟩
      ⟨["A"], "T", [⟨"MISSING", .Literal (.bool true)⟩], none, [], [], none⟩).2.2.2
     ⟨"T", ["A"], [[("A", .int 1)]]⟩ ⟨"MISSING", .Literal (.bool true)⟩
     rfl (List.mem_singleton.mpr rfl) rfl⟩

/-- C8 counterexample: ordering is not idempotent.  With keys
`K1 ASC, K2 ASC` and the three rows `(K1,K2) = (1,2), (2,"A"), (1,1)`, the
ordering stage yields `(1,2), (1,1), (2,"A")`, and applying it again yields
`(1,1), (1,2), (2,"A")` — the mixed-kind value `"A"` makes the comparator
intransitive, so the stable-sorts-in-reverse-order technique does not reach a
fixed point. -/
theorem c8_counterexample :
    orderStage [("K1", true), ("K2", true)]
        [[("K1", Value.int 1), ("K2", Value.int 2)],
         [("K1", Value.int 2), ("K2", Value.string "A")],
         [("K1", Value.int 1), ("K2", Value.int 1)]] =
      [[("K1", Value.int 1), ("K2", Value.int 2)],
       [("K1", Value.int 1), ("K2", Value.int 1)],
       [("K1", Value.int 2), ("K2", Value.string "A")]] ∧
    (orderStage [("K1", true), ("K2", true)]
        (orderStage [("K1", true), ("K2", true)]
          [[("K1", Value.int 1), ("K2", Value.int 2)],
           [("K1", Value.int 2), ("K2", Value.string "A")],
           [("K1", Value.int 1), ("K2", Value.int 1)]]) ==
      orderStage [("K1", true), ("K2", true)]
        [[("K1", Value.int 1), ("K2", Value.int 2)],
         [("K1", Value.int 2), ("K2", Value.string "A")],
         [("K1", Value.int 1), ("K2", Value.int 1)]]) = false := by
  refine ⟨rfl, ?_⟩
  decide

/-- C8 amended: ordering applies one stable sort per `(column, ascending?)`
key in reverse declaration order; each pairwise comparison is defined only
within a kind (integer, string, float), every other pair compares as equal;
the sort is stable (any class of mutually non-less rows keeps its relative
order); and a single-key ordering is idempotent.  (Idempotence of a
multi-key ordering fails in general because cross-kind pairs make the
comparator intransitive — see the counterexample.) -/
theorem c8_order_amended :
    (∀ (k : String × Bool) (ks : List (String × Bool)) (rows : List Row),
      orderStage (k :: ks) rows = sortStable (rowCmp k) (orderStage ks rows)) ∧
    (∀ x y : Int,
      (compare_values (.int x) (.int y) = .lt ↔ x < y) ∧
      (compare_values (.int x) (.int y) = .gt ↔ y < x) ∧
      (compare_values (.int x) (.int y) = .eq ↔ x = y)) ∧
    (∀ x y : String,
      (compare_values (.string x) (.string y) = .lt ↔ x < y) ∧
      (compare_values (.string x) (.string y) = .gt ↔ y < x) ∧
      (compare_values (.string x) (.string y) = .eq ↔ x = y)) ∧
    (∀ x y : Rat,
      (compare_values (.float x) (.float y) = .lt ↔ x < y) ∧
      (compare_values (.float x) (.float y) = .gt ↔ y < x) ∧
      (compare_values (.float x) (.float y) = .eq ↔ x = y)) ∧
    (∀ v w : Value, orderedKindPair v w = false → compare_values v w = .eq) ∧
    (∀ (k : String × Bool) (rows : List Row),
      sortStable (rowCmp k) (sortStable (rowCmp k) rows) =
        sortStable (rowCmp k) rows) ∧
    (∀ (k : String × Bool) (p : Row → Bool) (rows : List Row),
      (∀ a b, p a = true → p b = true → rowCmp k a b ≠ .lt) →
      (sortStable (rowCmp k) rows).filter p = rows.filter p) := by
  refine ⟨?_, ?_, ?_, ?_, ?_, ?_, ?_⟩
  · intro k ks rows
    simp [orderStage, List.foldl_append]
  · exact fun x y => ⟨ltCmp_lt_iff x y, ltCmp_gt_iff x y, ltCmp_eq_iff x y⟩
  · exact fun x y => ⟨ltCmp_lt_iff x y, ltCmp_gt_iff x y, ltCmp_eq_iff x y⟩
  · exact fun x y => ⟨ltCmp_lt_iff x y, ltCmp_gt_iff x y, ltCmp_eq_iff x y⟩
  · intro v w h
    cases v <;> cases w <;> simp_all [compare_values, orderedKindPair]
  · exact fun k rows => sortStable_idem _ (rowCmp_asym k) rows
  · exact fun k p rows hp => sortStable_filter _ p rows hp

/-- Witness for C8 at concrete inputs: a boolean-null pair compares equal,
and two rows agreeing on the sort key keep their relative order through the
sort. -/
theorem c8_witness :
    compare_values (.bool true) .null = .eq ∧
    (sortStable (rowCmp ("K1", true))
        [[("K1", Value.int 1)], [("K1", Value.int 1)]]).filter
        (fun r => r == [("K1", Value.int 1)]) =
      ([[("K1", Value.int 1)], [("K1", Value.int 1)]] : List Row).filter
        (fun r => r == [("K1", Value.int 1)]) :=
  ⟨c8_order_amended.2.2.2.2.1 (.bool true) .null rfl,
   c8_order_amended.2.2.2.2.2.2 ("K1", true) _ _ (fun a b ha hb => by
     rw [eq_of_beq ha, eq_of_beq hb]
     decide)⟩

/-- C3 amended: a letter-initial word immediately followed by a dot and a
further letter-initial identifier word is not one token.  The word is emitted
as an identifier token without the dot, the dot itself is consumed and
discarded by `take_while`, and the following word becomes a separate
identifier token. -/
theorem c3_amended_dot_splits_identifier
    (c₁ c₂ : Char) (t₁ t₂ : List Char)
    (h1 : identHeadChar c₁.toUpper = true)
    (h2 : identHeadChar c₂.toUpper = true)
    (ht₁ : ∀ c ∈ t₁, identChar c.toUpper = true)
    (ht₂ : ∀ c ∈ t₂, identChar c.toUpper = true)
    (hw1 : wordToken (String.mk ((c₁ :: t₁).map Char.toUpper)) =
      Token.Ident (String.mk ((c₁ :: t₁).map Char.toUpper)))
    (hw2 : wordToken (String.mk ((c₂ :: t₂).map Char.toUpper)) =
      Token.Ident (String.mk ((c₂ :: t₂).map Char.toUpper))) :
    tokenize (String.mk (c₁ :: t₁ ++ '.' :: c₂ :: t₂)) =
      [Token.Ident (String.mk ((c₁ :: t₁).map Char.toUpper)),
       Token.Ident (String.mk ((c₂ :: t₂).map Char.toUpper))] := by
  have hdot : ('.' : Char).toUpper = '.' := rfl
  have hmap : (c₁ :: t₁ ++ '.' :: c₂ :: t₂).map Char.toUpper =
      c₁.toUpper :: (t₁.map Char.toUpper ++
        '.' :: c₂.toUpper :: t₂.map Char.toUpper) := by
    simp [hdot]
  have htw1 : takeWhileEat identChar (c₁.toUpper ::
      (t₁.map Char.toUpper ++ '.' :: c₂.toUpper :: t₂.map Char.toUpper)) =
      (c₁.toUpper :: t₁.map Char.toUpper, c₂.toUpper :: t₂.map Char.toUpper) := by
    rw [← List.cons_append]
    refine takeWhileEat_append identChar _ '.' _ ?_ rfl
    intro x hx
    rcases List.mem_cons.mp hx with rfl | hx'
    · exact identChar_of_identHeadChar _ h1
    · obtain ⟨c, hc, rfl⟩ := List.mem_map.mp hx'
      exact ht₁ c hc
  have htw2 : takeWhileEat identChar (c₂.toUpper :: t₂.map Char.toUpper) =
      (c₂.toUpper :: t₂.map Char.toUpper, []) := by
    refine takeWhileEat_all identChar _ ?_
    intro x hx
    rcases List.mem_cons.mp hx with rfl | hx'
    · exact identChar_of_identHeadChar _ h2
    · obtain ⟨c, hc, rfl⟩ := List.mem_map.mp hx'
      exact ht₂ c hc
  show tokenizeAux (((String.mk (c₁ :: t₁ ++ '.' :: c₂ :: t₂)).toList.map
      Char.toUpper).length + 1)
      ((String.mk (c₁ :: t₁ ++ '.' :: c₂ :: t₂)).toList.map Char.toUpper) = _
  rw [show (String.mk (c₁ :: t₁ ++ '.' :: c₂ :: t₂)).toList =
    c₁ :: t₁ ++ '.' :: c₂ :: t₂ from rfl, hmap]
  rw [tokenizeAux_ident_step _ _ _ h1, htw1]
  rw [List.length_cons, tokenizeAux_ident_step _ _ _ h2, htw2]
  rw [tokenizeAux_nil]
  rw [show (c₁ :: t₁).map Char.toUpper = c₁.toUpper :: t₁.map Char.toUpper
    from rfl] at hw1
  rw [show (c₂ :: t₂).map Char.toUpper = c₂.toUpper :: t₂.map Char.toUpper
    from rfl] at hw2
  rw [hw1, hw2]
  simp

/-- Witness for the amended C3 claim at the concrete input `users.id`. -/
theorem c3_amended_witness :
    tokenize (String.mk (['u', 's', 'e', 'r', 's'] ++ '.' :: ['i', 'd'])) =
      [Token.Ident (String.mk (['u', 's', 'e', 'r', 's'].map Char.toUpper)),
       Token.Ident (String.mk (['i', 'd'].map Char.toUpper))] :=
  c3_amended_dot_splits_identifier 'u' 'i' ['s', 'e', 'r', 's'] ['d']
    (by decide) (by decide) (by decide) (by decide) (by decide) (by decide)

end QL
